import Mathlib

/-!
Verification of the region algebra of `ripgrepripsed` (`src/src/index.ts`).

The TypeScript program maintains a working list of `RgRegion` values
(contiguous line ranges within files) and narrows it stage by stage.  This
file is a shallow embedding of that code: JavaScript numbers that can be
`NaN` are modelled by `Option Int` (`none` is `NaN`), the async generator
`rgLinesToRegions` becomes a structurally recursive function over a list of
input lines, and the per-stage region transformations of `main` become pure
list functions.  External collaborators (the `rg` subprocess, the
filesystem, stdin, the `minimatch` library) are parameters of the driver
model, exactly as their outputs feed the TypeScript code.
-/

/-- A JavaScript number as used for line numbers in the source: either a
finite integer or `NaN` (modelled by `none`).  The source only ever feeds
integral values (or `NaN`) into these slots, so an `Int` payload is a
faithful model below `Number.MAX_SAFE_INTEGER`. -/
abbrev JsNum := Option Int

/-- JavaScript `a <= b` on numbers: `false` whenever either side is `NaN`. -/
def jsLe : JsNum → JsNum → Bool
  | some a, some b => a ≤ b
  | _, _ => false

/-- JavaScript `a === b` on numbers: `false` whenever either side is `NaN`
(in particular `NaN === NaN` is `false`). -/
def jsEq : JsNum → JsNum → Bool
  | some a, some b => a == b
  | _, _ => false

/-- JavaScript `x + 1` on a number: `NaN + 1` is `NaN`. -/
def jsAdd1 : JsNum → JsNum
  | none => none
  | some a => some (a + 1)

/-- `String.split(sep)` of JavaScript on a character-level list: splits at
every occurrence of the separator and keeps empty pieces, so the result is
never empty (`""` splits to `[""]`). -/
def jsSplitChar (sep : Char) : List Char → List (List Char)
  | [] => [[]]
  | c :: cs =>
    if c == sep then [] :: jsSplitChar sep cs
    else
      match jsSplitChar sep cs with
      | [] => [[c]]
      | p :: ps => (c :: p) :: ps

/-- JavaScript `s.split(sep)` for a one-character separator. -/
def jsSplit (s : String) (sep : Char) : List String :=
  (jsSplitChar sep s.toList).map String.mk

/-- Strip leading and trailing whitespace from a character list (the
JavaScript `trim`). -/
def charListTrim (l : List Char) : List Char :=
  ((l.dropWhile Char.isWhitespace).reverse.dropWhile Char.isWhitespace).reverse

/-- Value of a nonempty all-decimal-digit character list. -/
def decDigitsValue (l : List Char) : Nat :=
  l.foldl (fun n c => n * 10 + (c.toNat - 48)) 0

/-- Model of the JavaScript `Number(x)` conversion as applied to the
line-number field of a match line.  `none` input models `undefined` (the
field was absent), which converts to `NaN`.  A whitespace-only string
converts to `0`; a string of decimal digits (after trimming) converts to
its value; every other string is modelled as `NaN`.  (Genuine JavaScript
also accepts signs, fractions, exponents and hex, which `rg` never emits
in the line-number position; the claims below only evaluate this function
on digit strings and on clearly non-numeric strings, where the model and
JavaScript agree.) -/
def jsNumber : Option String → JsNum
  | none => none
  | some s =>
    let t := charListTrim s.toList
    if t.isEmpty then some 0
    else if t.all Char.isDigit then some ((decDigitsValue t : Nat) : Int)
    else none

/-- The `RgRegion` record of the source: a contiguous run of matched lines
in one file.  Line numbers are JavaScript numbers (`NaN` possible). -/
structure RgRegion where
  filepath : String
  firstLineNumber : JsNum
  lastLineNumber : JsNum
  lines : List String
  deriving DecidableEq

/-- The three pieces the loop body of `rgLinesToRegions` destructures out
of one raw match line `filepath:lineNumber:text` (after applying
`Number(...)` to the second field). -/
structure ParsedMatch where
  filepath : String
  lineNumber : JsNum
  text : String
  deriving DecidableEq

/-- JavaScript `array.join(sep)` for an array of strings. -/
def jsJoinStrings (sep : String) : List String → String
  | [] => ""
  | [x] => x
  | x :: y :: xs => x ++ sep ++ jsJoinStrings sep (y :: xs)

/-- The destructuring `const [filepath, lineNumber, ...rest] = line.split(':')`
together with `Number(lineNumber)` and `rest.join(':')` from
`rgLinesToRegions`.  `split` never returns an empty array, so the default
of `headD` is never used; a missing second field is `undefined`, hence
`NaN`. -/
def parseMatchLine (line : String) : ParsedMatch :=
  let parts := jsSplit line ':'
  { filepath := parts.headD ""
    lineNumber := jsNumber (parts.get? 1)
    text := jsJoinStrings ":" (parts.drop 2) }

/-- The fresh region `rgLinesToRegions` opens for a match that does not
extend the currently open region:
`{ filepath, firstLineNumber: Number(lineNumber), lastLineNumber: Number(lineNumber), lines: [text] }`. -/
def openRegion (m : ParsedMatch) : RgRegion :=
  { filepath := m.filepath
    firstLineNumber := m.lineNumber
    lastLineNumber := m.lineNumber
    lines := [m.text] }

/-- The in-place extension of the open region by a consecutive match:
`region.lastLineNumber = Number(lineNumber); region.lines.push(rest.join(':'))`. -/
def extendRegion (r : RgRegion) (m : ParsedMatch) : RgRegion :=
  { r with lastLineNumber := m.lineNumber, lines := r.lines ++ [m.text] }

/-- The loop of `rgLinesToRegions`, with the mutable `region` variable made
an explicit `Option RgRegion` argument.  A match extends the open region
when it has the same filepath and its line number `===` the open region's
`lastLineNumber + 1`; otherwise the open region (if any) is emitted and a
fresh one is opened.  After the stream ends the still-open region is
emitted. -/
def coalesceAux : Option RgRegion → List ParsedMatch → List RgRegion
  | none, [] => []
  | some r, [] => [r]
  | some r, m :: rest =>
    if m.filepath == r.filepath && jsEq m.lineNumber (jsAdd1 r.lastLineNumber) then
      coalesceAux (some (extendRegion r m)) rest
    else
      r :: coalesceAux (some (openRegion m)) rest
  | none, m :: rest => coalesceAux (some (openRegion m)) rest

/-- `rgLinesToRegions` on an already-destructured match stream (the
generator starts with `region = undefined`). -/
def rgMatchesToRegions (ms : List ParsedMatch) : List RgRegion :=
  coalesceAux none ms

/-- The full `rgLinesToRegions` generator of the source, consuming raw
`filepath:lineNumber:text` lines. -/
def rgLinesToRegions (lines : List String) : List RgRegion :=
  coalesceAux none (lines.map parseMatchLine)

/-- `newRegionsByFile.get(f) || []`: the source groups the new search's
regions into a `Map` keyed by filepath, appending in stream order, so the
per-file list retrieved for `f` is exactly the sublist of the stream whose
filepath is `f`, in order. -/
def regionsForFile (regions : List RgRegion) (f : String) : List RgRegion :=
  regions.filter (fun r => r.filepath == f)

/-- The chained positive search filter of `main` (`script.type === 'rg'`,
non-first stage): keep an existing region iff some new region in the same
file satisfies `newRegion.firstLineNumber <= existingRegion.lastLineNumber
&& newRegion.lastLineNumber >= existingRegion.firstLineNumber`. -/
def intersectByOverlap (current newRegions : List RgRegion) : List RgRegion :=
  current.filter (fun r =>
    (regionsForFile newRegions r.filepath).any (fun n =>
      jsLe n.firstLineNumber r.lastLineNumber && jsLe r.firstLineNumber n.lastLineNumber))

/-- The negated search filter of `main` (`script.type === 'rg-negated'`):
drop an existing region iff some negated region in the same file overlaps
it (same inclusive overlap test as the positive case, negated). -/
def subtractByOverlap (current negatedRegions : List RgRegion) : List RgRegion :=
  current.filter (fun r =>
    !((regionsForFile negatedRegions r.filepath).any (fun n =>
      jsLe n.firstLineNumber r.lastLineNumber && jsLe r.firstLineNumber n.lastLineNumber)))

/-- The glob stage of `main`: `rgRegions.filter(r => minimatch(r.filepath,
pattern))`, with the external `minimatch` library abstracted as the
predicate `matchFn`. -/
def globFilter (matchFn : String → String → Bool) (pattern : String)
    (current : List RgRegion) : List RgRegion :=
  current.filter (fun r => matchFn r.filepath pattern)

/-- The non-first `files-from-stdin` stage of `main`:
`rgRegions.filter(r => filesFromStdin.includes(r.filepath))`. -/
def stdinFilter (filesFromStdin : List String) (current : List RgRegion) : List RgRegion :=
  current.filter (fun r => filesFromStdin.contains r.filepath)

/-- `Number.MAX_SAFE_INTEGER`. -/
def maxSafeInteger : Int := 9007199254740991

/-- The first-stage `files-from-stdin` seeding of `main`: one region per
listed filepath with `firstLineNumber: 1`,
`lastLineNumber: Number.MAX_SAFE_INTEGER`, `lines: []`. -/
def filesFromStdinSeed (filesFromStdin : List String) : List RgRegion :=
  filesFromStdin.map (fun fp =>
    { filepath := fp
      firstLineNumber := some 1
      lastLineNumber := some maxSafeInteger
      lines := [] })

/-- JavaScript `s.trim()`. -/
def jsTrim (s : String) : String :=
  String.mk (charListTrim s.toList)

/-- `readFilesFromStdin` of the source: each stdin line is trimmed and kept
only if nonempty (`if (trimmed) files.push(trimmed)`). -/
def jsReadStdin (stdinLines : List String) : List String :=
  (stdinLines.map jsTrim).filter (fun l => l != "")

/-- Pair each line of a file with its 1-based line number, modelling the
`lineNumber` counter of the `print-regions` loop (the counter starts at the
first argument). -/
def numberLinesFrom : Int → List String → List (Int × String)
  | _, [] => []
  | i, l :: ls => (i, l) :: numberLinesFrom (i + 1) ls

/-- The `print-regions` loop body of `main` for one region: every line of
the file whose number satisfies `lineNumber >= firstLineNumber &&
lineNumber <= lastLineNumber` is printed as
`[filepath, lineNumber, line].join(':')`. -/
def printRegion (fileLines : List String) (r : RgRegion) : List String :=
  ((numberLinesFrom 1 fileLines).filter (fun p =>
      jsLe r.firstLineNumber (some p.1) && jsLe (some p.1) r.lastLineNumber)).map
    (fun p => r.filepath ++ ":" ++ toString p.1 ++ ":" ++ p.2)

/-- The `print-files` stage of `main`: print each region's filepath on
first occurrence only (the `printedFiles` set made explicit). -/
def dedupFirst : List String → List String → List String
  | _, [] => []
  | seen, f :: fs =>
    if seen.contains f then dedupFirst seen fs
    else f :: dedupFirst (f :: seen) fs

/-- JavaScript `s[i]`: the `i`-th character, or `undefined` past the end. -/
def jsCharAt (s : String) (i : Nat) : Option Char :=
  s.toList.get? i

/-- JavaScript `s.startsWith(pre)`. -/
def jsStartsWith (s pre : String) : Bool :=
  pre.toList.isPrefixOf s.toList

/-- JavaScript `s.split(sep)` where `sep` may be `undefined` (then the
result is the one-element array holding the whole string). -/
def jsSplitOpt (s : String) (sep : Option Char) : List String :=
  match sep with
  | none => [s]
  | some c => jsSplit s c

/-- JavaScript `array.join(sep)` where the array elements may be
`undefined` (rendered as the empty string) and the separator may be
`undefined` (defaulting to a comma). -/
def jsJoinOpt (xs : List (Option String)) (sep : Option Char) : String :=
  jsJoinStrings (match sep with | some c => String.mk [c] | none => ",") (xs.map (fun x => x.getD ""))

/-- JavaScript truthiness of a possibly-undefined string. -/
def truthyStr : Option String → Bool
  | none => false
  | some s => s != ""

/-- The parsed `Script` variants of the source.  Fields that the TypeScript
code obtains from array destructuring without validation (and that can
therefore be `undefined` at runtime) are modelled as `Option`. -/
inductive Script where
  | rg (pattern flags : Option String)
  | sed (sep : Option Char) (pattern : String) (replacement flags : Option String)
  | printFiles
  | printRegions
  | glob (pattern : String)
  | rgNegated (pattern : Option String) (flags : String)
  | filesFromStdin
  deriving DecidableEq

/-- `parseScript` of the source.  The branches are tried in source order;
the `sed` and `glob` branches fall through to the later checks when their
validation fails, and an unrecognized string raises
`Unknown script type: ...` (modelled by `Except.error`). -/
def parseScript (script : String) : Except String Script :=
  let sedResult :=
    if jsStartsWith script "sed" then
      let sep := jsCharAt script 3
      let parts := jsSplitOpt script sep
      let pattern := parts.get? 2
      let reconstructed :=
        jsJoinOpt [some "sed", parts.get? 1, parts.get? 2, parts.get? 3, parts.get? 4] sep
      if truthyStr pattern && (reconstructed == script) then
        some (Script.sed sep (pattern.getD "") (parts.get? 3) (parts.get? 4))
      else none
    else none
  match sedResult with
  | some s => Except.ok s
  | none =>
  if jsStartsWith script "!rg" then
    let sep := jsCharAt script 3
    let parts := jsSplitOpt script sep
    Except.ok (Script.rgNegated (parts.get? 1) ((parts.get? 2).getD ""))
  else if jsStartsWith script "rg" then
    let sep := jsCharAt script 2
    let parts := jsSplitOpt script sep
    Except.ok (Script.rg (parts.get? 1) (parts.get? 2))
  else if script == "print-files" then
    Except.ok Script.printFiles
  else if script == "print-regions" then
    Except.ok Script.printRegions
  else
    let globResult :=
      if jsStartsWith script "glob" then
        let sep := jsCharAt script 4
        let parts := jsSplitOpt script sep
        let pattern := parts.get? 1
        if truthyStr pattern then some (Script.glob (pattern.getD "")) else none
      else none
    match globResult with
    | some s => Except.ok s
    | none =>
      if script == "files-from-stdin" then Except.ok Script.filesFromStdin
      else Except.error ("Unknown script type: " ++ script)

/-- `scriptStrings.map(parseScript)` of `main`: JavaScript `map` applies
the function left to right and a `throw` aborts the whole map, so the
first parse error is the result and no later string is parsed. -/
def parseAll : List String → Except String (List Script)
  | [] => Except.ok []
  | s :: rest =>
    match parseScript s with
    | Except.error e => Except.error e
    | Except.ok sc =>
      match parseAll rest with
      | Except.error e => Except.error e
      | Except.ok scs => Except.ok (sc :: scs)

/-- The `type` tag of a script, exactly the string stored in the source's
tagged records. -/
def Script.stype : Script → String
  | Script.rg _ _ => "rg"
  | Script.sed _ _ _ _ => "sed"
  | Script.printFiles => "print-files"
  | Script.printRegions => "print-regions"
  | Script.glob _ => "glob"
  | Script.rgNegated _ _ => "rg-negated"
  | Script.filesFromStdin => "files-from-stdin"

/-- The default-report insertion of `main`: if no parsed script has type
`print-files` or `print-regions`, push a `print-regions` script. -/
def addDefaultPrint (scripts : List Script) : List Script :=
  if scripts.any (fun s => s.stype == "print-files" || s.stype == "print-regions") then
    scripts
  else
    scripts ++ [Script.printRegions]

/-- The external collaborators of one `main` invocation: the successive
raw line outputs of the `rg` subprocess calls, the filesystem contents
used by `print-regions`, the raw stdin lines, and the `minimatch`
library. -/
structure Env where
  rgOutputs : List (List String)
  fileContents : String → List String
  stdinLines : List String
  globMatch : String → String → Bool

/-- The mutable state of `main`: the current region set, the rg outputs
not yet consumed, everything printed so far via `console.log`, and a trace
of the `sed` invocations (filepath with the line range passed to `sed`). -/
structure DriverState where
  regions : List RgRegion
  pendingRgOutputs : List (List String)
  output : List String
  sedCalls : List (String × JsNum × JsNum)

/-- Initial driver state: `rgRegions = []`, nothing printed. -/
def initDriverState (env : Env) : DriverState :=
  { regions := [], pendingRgOutputs := env.rgOutputs, output := [], sedCalls := [] }

/-- One iteration of the stage loop of `main`.  An `rg` stage consumes the
next subprocess output (the `executeRg` generator drops lines that are
whitespace-only, `if (line.trim())`); the remaining stages are the region
transformations defined above. -/
def execStage (env : Env) (isFirstScript : Bool) (st : DriverState) : Script → DriverState
  | Script.rg _ _ =>
    let lines := (st.pendingRgOutputs.headD []).filter (fun l => jsTrim l != "")
    let newRegions := rgLinesToRegions lines
    { st with
      regions := if isFirstScript then newRegions else intersectByOverlap st.regions newRegions
      pendingRgOutputs := st.pendingRgOutputs.tail }
  | Script.rgNegated _ _ =>
    let lines := (st.pendingRgOutputs.headD []).filter (fun l => jsTrim l != "")
    let negatedRegions := rgLinesToRegions lines
    { st with
      regions := subtractByOverlap st.regions negatedRegions
      pendingRgOutputs := st.pendingRgOutputs.tail }
  | Script.sed _ _ _ _ =>
    { st with sedCalls := st.sedCalls ++
        st.regions.map (fun r => (r.filepath, r.firstLineNumber, r.lastLineNumber)) }
  | Script.printFiles =>
    { st with output := st.output ++ dedupFirst [] (st.regions.map (fun r => r.filepath)) }
  | Script.printRegions =>
    { st with output := st.output ++
        (st.regions.map (fun r => printRegion (env.fileContents r.filepath) r)).flatten }
  | Script.glob pattern =>
    { st with regions := globFilter env.globMatch pattern st.regions }
  | Script.filesFromStdin =>
    let filesFromStdin := jsReadStdin env.stdinLines
    if isFirstScript then
      { st with regions := st.regions ++ filesFromStdinSeed filesFromStdin }
    else
      { st with regions := stdinFilter filesFromStdin st.regions }

/-- The stage loop of `main`: `isFirstScript` holds exactly for the first
script of the list. -/
def runStages (env : Env) : Bool → DriverState → List Script → DriverState
  | _, st, [] => st
  | isFirst, st, s :: rest => runStages env false (execStage env isFirst st s) rest

/-- `main` of the source: parse every script string up front, append the
default report stage if needed, then run the stage loop from the empty
region set. -/
def mainModel (env : Env) (scriptStrings : List String) : Except String DriverState :=
  match parseAll scriptStrings with
  | Except.error e => Except.error e
  | Except.ok scripts =>
    Except.ok (runStages env true (initDriverState env) (addDefaultPrint scripts))

/-- Tail of the sortedness check for a match stream: `used` holds the
files whose blocks are finished, `f` is the file of the current block and
`l` the last line number seen in it.  A further match must either stay in
file `f` with a strictly larger line number, or open a block for a file
never seen before; every line number must be numeric. -/
def sortedFromB (used : List String) (f : String) (l : Int) : List ParsedMatch → Bool
  | [] => true
  | m :: ms =>
    match m.lineNumber with
    | none => false
    | some n =>
      if m.filepath == f then decide (l < n) && sortedFromB used f n ms
      else !used.contains m.filepath && sortedFromB (f :: used) m.filepath n ms

/-- A match stream is grouped by file with strictly ascending numeric line
numbers within each file (the order `rg` produces). -/
def streamSorted : List ParsedMatch → Bool
  | [] => true
  | m :: ms =>
    match m.lineNumber with
    | none => false
    | some n => sortedFromB [] m.filepath n ms

/-- Line `n` lies within the (numeric) bounds of region `r`. -/
def covers (r : RgRegion) (n : Int) : Prop :=
  ∃ a b, r.firstLineNumber = some a ∧ r.lastLineNumber = some b ∧ a ≤ n ∧ n ≤ b

/-- Shape of an open region the coalescer can actually hold: either both
bounds are numeric with `first ≤ last`, or both are `NaN` (a region opened
from a malformed match line). -/
def goodOpen : Option RgRegion → Prop
  | none => True
  | some r =>
    (∃ a l, r.firstLineNumber = some a ∧ r.lastLineNumber = some l ∧ a ≤ l) ∨
    (r.firstLineNumber = none ∧ r.lastLineNumber = none)

/-- A region whose bounds agree with its stored content: numeric bounds
spanning exactly `lines.length` lines, at least one line. -/
def wellShaped (r : RgRegion) : Prop :=
  ∃ a : Int, r.firstLineNumber = some a ∧
    r.lastLineNumber = some (a + r.lines.length - 1) ∧ r.lines ≠ []

/-- Two regions of the same file are separated: one ends at least two
lines before the other begins (neither overlapping nor adjacent).  For
regions of different files there is no constraint. -/
def separated (r s : RgRegion) : Prop :=
  r.filepath = s.filepath →
    ∃ a b c d, r.firstLineNumber = some a ∧ r.lastLineNumber = some b ∧
      s.firstLineNumber = some c ∧ s.lastLineNumber = some d ∧
      (b + 2 ≤ c ∨ d + 2 ≤ a)

/-- Ordered variant of `separated` used while inducting along the stream:
the earlier-emitted region ends at least two lines before the later one
begins (when they are in the same file). -/
def sepAfter (r s : RgRegion) : Prop :=
  r.filepath = s.filepath →
    ∃ b c, r.lastLineNumber = some b ∧ s.firstLineNumber = some c ∧ b + 2 ≤ c

/-- Expand a region back into its individual per-line matches: line `i`
of the region (starting at line number `i₀`) carries the `i`-th stored
text. -/
def expandFrom (fp : String) : Int → List String → List ParsedMatch
  | _, [] => []
  | i, t :: ts => ⟨fp, some i, t⟩ :: expandFrom fp (i + 1) ts

/-- A concrete environment whose stdin lists the same file twice (both
lines survive `readFilesFromStdin` unchanged); no rg output, no file
contents, a glob matcher that rejects everything. -/
def envDup : Env :=
  { rgOutputs := []
    fileContents := fun _ => []
    stdinLines := ["a.txt", "a.txt"]
    globMatch := fun _ _ => false }

/-! ## Basic lemmas about the JavaScript number model -/

theorem jsLe_some_right {x : JsNum} {b : Int} :
    jsLe x (some b) = true ↔ ∃ a, x = some a ∧ a ≤ b := by
  cases x <;> simp [jsLe]

theorem jsLe_some_left {a : Int} {y : JsNum} :
    jsLe (some a) y = true ↔ ∃ b, y = some b ∧ a ≤ b := by
  cases y <;> simp [jsLe]

/-- The overlap test the chained and negated search stages both run:
`true` iff some region of the new stream lies in the same file and its
bounds are numeric and inclusively overlap the given numeric bounds. -/
theorem overlap_any_iff (newRegions : List RgRegion) (r : RgRegion) (a b : Int)
    (ha : r.firstLineNumber = some a) (hb : r.lastLineNumber = some b) :
    ((regionsForFile newRegions r.filepath).any (fun n =>
        jsLe n.firstLineNumber r.lastLineNumber &&
        jsLe r.firstLineNumber n.lastLineNumber) = true) ↔
    (∃ n ∈ newRegions, n.filepath = r.filepath ∧ ∃ c d,
      n.firstLineNumber = some c ∧ n.lastLineNumber = some d ∧ c ≤ b ∧ a ≤ d) := by
  rw [List.any_eq_true]
  constructor
  · rintro ⟨n, hn, hcond⟩
    rw [regionsForFile, List.mem_filter] at hn
    obtain ⟨hn, hfp⟩ := hn
    rw [Bool.and_eq_true] at hcond
    obtain ⟨h1, h2⟩ := hcond
    rw [hb, jsLe_some_right] at h1
    rw [ha, jsLe_some_left] at h2
    obtain ⟨c, hc, hcb⟩ := h1
    obtain ⟨d, hd, had⟩ := h2
    exact ⟨n, hn, by simpa using hfp, c, d, hc, hd, hcb, had⟩
  · rintro ⟨n, hn, hfp, c, d, hc, hd, hcb, had⟩
    refine ⟨n, ?_, ?_⟩
    · rw [regionsForFile, List.mem_filter]
      exact ⟨hn, by simpa using hfp⟩
    · rw [Bool.and_eq_true, hb, jsLe_some_right, ha, jsLe_some_left]
      exact ⟨⟨c, hc, hcb⟩, ⟨d, hd, had⟩⟩

/-- C1: a chained (non-first) positive search stage keeps exactly those
prior regions overlapped (inclusively, by at least one line) by some new
region of the same file, and every survivor is an unchanged element of the
prior region set (the result is a subsequence of it). -/
theorem intersect_by_overlap_correct (current newRegions : List RgRegion)
    (r : RgRegion) (a b : Int)
    (ha : r.firstLineNumber = some a) (hb : r.lastLineNumber = some b) :
    (intersectByOverlap current newRegions).Sublist current ∧
    (r ∈ intersectByOverlap current newRegions ↔
      r ∈ current ∧ ∃ n ∈ newRegions, n.filepath = r.filepath ∧ ∃ c d,
        n.firstLineNumber = some c ∧ n.lastLineNumber = some d ∧
        c ≤ b ∧ a ≤ d) := by
  refine ⟨List.filter_sublist _, ?_⟩
  rw [intersectByOverlap, List.mem_filter]
  rw [overlap_any_iff newRegions r a b ha hb]

/-- Witness for C1 at the spec's own example: current region `(f,10,12)`
and new region `(f,11,11)` — the current region survives with its original
bounds. -/
theorem intersect_by_overlap_correct_witness :
    (⟨"f", some 10, some 12, ["x", "y", "z"]⟩ : RgRegion) ∈
      intersectByOverlap [⟨"f", some 10, some 12, ["x", "y", "z"]⟩]
        [⟨"f", some 11, some 11, ["y"]⟩] :=
  (intersect_by_overlap_correct _ _ _ 10 12 rfl rfl).2.mpr
    ⟨by decide, ⟨"f", some 11, some 11, ["y"]⟩, by decide, rfl, 11, 11, rfl, rfl,
      by decide, by decide⟩

/-- C2: a negated search stage drops a prior region iff some negated-match
region in the same file overlaps it by at least one line (any partial
overlap already removes the whole region), and otherwise regions pass
through unchanged (the result is a subsequence of the prior set). -/
theorem subtract_by_overlap_correct (current negatedRegions : List RgRegion)
    (r : RgRegion) (a b : Int)
    (ha : r.firstLineNumber = some a) (hb : r.lastLineNumber = some b) :
    (subtractByOverlap current negatedRegions).Sublist current ∧
    (r ∈ subtractByOverlap current negatedRegions ↔
      r ∈ current ∧ ¬ ∃ n ∈ negatedRegions, n.filepath = r.filepath ∧ ∃ c d,
        n.firstLineNumber = some c ∧ n.lastLineNumber = some d ∧
        c ≤ b ∧ a ≤ d) := by
  refine ⟨List.filter_sublist _, ?_⟩
  rw [subtractByOverlap, List.mem_filter]
  rw [Bool.not_eq_true']
  rw [← Bool.not_eq_true]
  rw [overlap_any_iff negatedRegions r a b ha hb]

/-- Witness for C2 at the spec's own example: current region `(f,10,12)`
and negated region `(f,12,20)` overlap in line 12 only, and the current
region is dropped entirely. -/
theorem subtract_by_overlap_correct_witness :
    (⟨"f", some 10, some 12, ["x", "y", "z"]⟩ : RgRegion) ∉
      subtractByOverlap [⟨"f", some 10, some 12, ["x", "y", "z"]⟩]
        [⟨"f", some 12, some 20, ["z"]⟩] := by
  intro hmem
  exact ((subtract_by_overlap_correct _ _ _ 10 12 rfl rfl).2.mp hmem).2
    ⟨⟨"f", some 12, some 20, ["z"]⟩, by decide, rfl, 12, 20, rfl, rfl,
      by decide, by decide⟩

/-- C10: every filtering stage (chained positive search, negated search,
glob, non-first files-from-stdin) returns a subsequence of its input
region set: surviving regions are unchanged elements, in their input
order, with nothing created or duplicated. -/
theorem filtering_stages_subsequence :
    (∀ current newRegions,
      (intersectByOverlap current newRegions).Sublist current) ∧
    (∀ current negatedRegions,
      (subtractByOverlap current negatedRegions).Sublist current) ∧
    (∀ matchFn pattern current,
      (globFilter matchFn pattern current).Sublist current) ∧
    (∀ files current, (stdinFilter files current).Sublist current) :=
  ⟨fun _ _ => List.filter_sublist _, fun _ _ => List.filter_sublist _,
    fun _ _ _ => List.filter_sublist _, fun _ _ => List.filter_sublist _⟩

/-- C7: if the parsed stage list contains no `print-files` and no
`print-regions` stage, exactly one default `print-regions` stage is pushed
at the end; if it contains either report stage, the list is unchanged. -/
theorem default_report_insertion (scripts : List Script) :
    ((∀ s ∈ scripts, s ≠ Script.printFiles ∧ s ≠ Script.printRegions) →
      addDefaultPrint scripts = scripts ++ [Script.printRegions]) ∧
    ((∃ s ∈ scripts, s = Script.printFiles ∨ s = Script.printRegions) →
      addDefaultPrint scripts = scripts) := by
  constructor
  · intro h
    rw [addDefaultPrint, if_neg]
    intro hany
    rw [List.any_eq_true] at hany
    obtain ⟨s, hs, htag⟩ := hany
    obtain ⟨h1, h2⟩ := h s hs
    cases s <;> simp_all [Script.stype]
  · rintro ⟨s, hs, hor⟩
    rw [addDefaultPrint, if_pos]
    rw [List.any_eq_true]
    refine ⟨s, hs, ?_⟩
    rcases hor with h | h <;> subst h <;> simp [Script.stype]

/-- Witness for C7: a one-search stage list gets exactly the default
`print-regions` appended. -/
theorem default_report_insertion_witness :
    addDefaultPrint [Script.rg (some "p") (some "g")] =
      [Script.rg (some "p") (some "g"), Script.printRegions] :=
  (default_report_insertion _).1 (by decide)

/-! ## Unfolding lemmas for the coalescer -/

theorem coalesceAux_cons_some (r : RgRegion) (m : ParsedMatch) (ms : List ParsedMatch) :
    coalesceAux (some r) (m :: ms) =
      if m.filepath == r.filepath && jsEq m.lineNumber (jsAdd1 r.lastLineNumber) then
        coalesceAux (some (extendRegion r m)) ms
      else r :: coalesceAux (some (openRegion m)) ms := rfl

theorem coalesceAux_cons_none (m : ParsedMatch) (ms : List ParsedMatch) :
    coalesceAux none (m :: ms) = coalesceAux (some (openRegion m)) ms := rfl

theorem jsEq_none_right (x : JsNum) : jsEq x none = false := by cases x <;> rfl

theorem jsEq_none_left (y : JsNum) : jsEq none y = false := by cases y <;> rfl

theorem jsEq_eq_true_iff (x y : JsNum) : jsEq x y = true ↔ ∃ a, x = some a ∧ y = some a := by
  cases x <;> cases y <;> simp [jsEq]
  exact eq_comm

/-- An open region with `NaN` last bound can never be extended, so it is
emitted unchanged whatever the rest of the stream holds. -/
theorem nan_open_emitted (r : RgRegion) (h : r.lastLineNumber = none)
    (ms : List ParsedMatch) : r ∈ coalesceAux (some r) ms := by
  induction ms with
  | nil => simp [coalesceAux]
  | cons m rest _ =>
    rw [coalesceAux_cons_some, h]
    simp only [jsAdd1, jsEq_none_right, Bool.and_false, if_false]
    exact List.mem_cons_self _ _

theorem nan_match_mem_aux (ms : List ParsedMatch) :
    ∀ (reg : Option RgRegion) (m : ParsedMatch), m ∈ ms → m.lineNumber = none →
      (⟨m.filepath, none, none, [m.text]⟩ : RgRegion) ∈ coalesceAux reg ms := by
  induction ms with
  | nil => intro reg m hm; cases hm
  | cons hd rest ih =>
    intro reg m hm hnan
    have hopen : openRegion m = ⟨m.filepath, none, none, [m.text]⟩ := by
      simp [openRegion, hnan]
    rcases List.mem_cons.mp hm with hEq | hmem
    · subst hEq
      cases reg with
      | none =>
        rw [coalesceAux_cons_none, hopen]
        exact nan_open_emitted _ rfl rest
      | some r =>
        rw [coalesceAux_cons_some, hnan]
        simp only [jsEq_none_left, Bool.and_false, if_false]
        refine List.mem_cons_of_mem _ ?_
        rw [hopen]
        exact nan_open_emitted _ rfl rest
    · cases reg with
      | none =>
        rw [coalesceAux_cons_none]
        exact ih _ m hmem hnan
      | some r =>
        rw [coalesceAux_cons_some]
        split
        · exact ih _ m hmem hnan
        · exact List.mem_cons_of_mem _ (ih _ m hmem hnan)

/-- Extending an open region through a run of consecutive matches of the
same file absorbs the whole run into one region. -/
theorem coalesce_run (fp : String) (ts : List String) :
    ∀ (a l : Int) (acc : List String),
      coalesceAux (some ⟨fp, some a, some l, acc⟩) (expandFrom fp (l + 1) ts) =
        [⟨fp, some a, some (l + ts.length), acc ++ ts⟩] := by
  induction ts with
  | nil => intro a l acc; simp [expandFrom, coalesceAux]
  | cons t ts ih =>
    intro a l acc
    rw [expandFrom, coalesceAux_cons_some]
    simp only [jsAdd1, jsEq, beq_self_eq_true, Bool.and_self, if_true]
    rw [show extendRegion ⟨fp, some a, some l, acc⟩ ⟨fp, some (l + 1), t⟩ =
      (⟨fp, some a, some (l + 1), acc ++ [t]⟩ : RgRegion) from rfl]
    rw [ih a (l + 1) (acc ++ [t])]
    have h1 : l + 1 + (ts.length : Int) = l + ((t :: ts).length : Int) := by
      simp [List.length_cons]; ring
    rw [h1]
    simp [List.append_assoc]

theorem goodOpen_openRegion (m : ParsedMatch) : goodOpen (some (openRegion m)) := by
  cases h : m.lineNumber with
  | none => exact Or.inr ⟨by simp [openRegion, h], by simp [openRegion, h]⟩
  | some k => exact Or.inl ⟨k, k, by simp [openRegion, h], by simp [openRegion, h], le_refl k⟩

theorem covers_openRegion (m : ParsedMatch) (n : Int) :
    covers (openRegion m) n ↔ m.lineNumber = some n := by
  cases h : m.lineNumber with
  | none => simp [covers, openRegion, h]
  | some k =>
    simp only [covers, openRegion, h, Option.some.injEq]
    constructor
    · rintro ⟨a, b, ha, hb, h1, h2⟩; omega
    · rintro h1; exact ⟨k, k, rfl, rfl, by omega, by omega⟩

theorem coverage_aux (ms : List ParsedMatch) :
    ∀ (reg : Option RgRegion), goodOpen reg → ∀ (fp : String) (n : Int),
      ((∃ r ∈ coalesceAux reg ms, r.filepath = fp ∧ covers r n) ↔
        (∃ r, reg = some r ∧ r.filepath = fp ∧ covers r n) ∨
        (∃ m ∈ ms, m.filepath = fp ∧ m.lineNumber = some n)) := by
  induction ms with
  | nil =>
    intro reg _ fp n
    cases reg with
    | none => simp [coalesceAux]
    | some r => simp [coalesceAux]
  | cons m rest ih =>
    intro reg hreg fp n
    have hmatches : (∃ m' ∈ m :: rest, m'.filepath = fp ∧ m'.lineNumber = some n) ↔
        ((m.filepath = fp ∧ m.lineNumber = some n) ∨
          ∃ m' ∈ rest, m'.filepath = fp ∧ m'.lineNumber = some n) :=
      List.exists_mem_cons_iff _ m rest
    cases reg with
    | none =>
      rw [coalesceAux_cons_none]
      rw [ih (some (openRegion m)) (goodOpen_openRegion m) fp n]
      rw [hmatches]
      simp only [Option.some.injEq, exists_eq_left']
      rw [show (openRegion m).filepath = m.filepath from rfl]
      rw [covers_openRegion]
      constructor
      · exact Or.inr
      · rintro (⟨r, hr, _⟩ | h)
        · cases hr
        · exact h
    | some r =>
      rw [coalesceAux_cons_some]
      by_cases hg : (m.filepath == r.filepath && jsEq m.lineNumber (jsAdd1 r.lastLineNumber)) = true
      · rw [if_pos hg]
        rw [Bool.and_eq_true] at hg
        obtain ⟨hfpb, hline⟩ := hg
        have hfp' : m.filepath = r.filepath := by simpa using hfpb
        rcases hreg with ⟨a, l, hfst, hlst, hal⟩ | ⟨hfst, hlst⟩
        · rw [hlst, show jsAdd1 (some l) = some (l + 1) from rfl] at hline
          obtain ⟨k, hk1, hk2⟩ := (jsEq_eq_true_iff _ _).mp hline
          have hm : m.lineNumber = some (l + 1) := by
            rw [hk1, Option.some.inj hk2]
          have hgood : goodOpen (some (extendRegion r m)) :=
            Or.inl ⟨a, l + 1, hfst, by simp [extendRegion, hm], by omega⟩
          rw [ih _ hgood fp n]
          rw [hmatches]
          have hcov : ∀ s, covers (extendRegion r m) s ↔ (covers r s ∨ s = l + 1) := by
            intro s
            simp only [covers, extendRegion, hfst, hlst, hm, Option.some.injEq]
            constructor
            · rintro ⟨a', b', ha', hb', h1, h2⟩
              by_cases hsl : s = l + 1
              · exact Or.inr hsl
              · exact Or.inl ⟨a, l, rfl, rfl, by omega, by omega⟩
            · rintro (⟨a', b', ha', hb', h1, h2⟩ | h1)
              · exact ⟨a, l + 1, rfl, rfl, by omega, by omega⟩
              · exact ⟨a, l + 1, rfl, rfl, by omega, by omega⟩
          simp only [Option.some.injEq, exists_eq_left']
          rw [show (extendRegion r m).filepath = r.filepath from rfl]
          rw [hcov n, hfp', hm]
          constructor
          · rintro (⟨h1, h2 | h3⟩ | h4)
            · exact Or.inl ⟨h1, h2⟩
            · exact Or.inr (Or.inl ⟨h1, by rw [h3]⟩)
            · exact Or.inr (Or.inr h4)
          · rintro (⟨h1, h2⟩ | ⟨h1, h2⟩ | h3)
            · exact Or.inl ⟨h1, Or.inl h2⟩
            · exact Or.inl ⟨h1, Or.inr (Option.some.inj h2).symm⟩
            · exact Or.inr h3
        · rw [hlst, show jsAdd1 (none : JsNum) = none from rfl, jsEq_none_right] at hline
          simp at hline
      · rw [if_neg hg]
        rw [List.exists_mem_cons_iff]
        rw [ih (some (openRegion m)) (goodOpen_openRegion m) fp n]
        rw [hmatches]
        simp only [Option.some.injEq, exists_eq_left']
        rw [show (openRegion m).filepath = m.filepath from rfl]
        rw [covers_openRegion]

theorem wellShaped_openRegion (m : ParsedMatch) (k : Int) (h : m.lineNumber = some k) :
    wellShaped (openRegion m) := by
  refine ⟨k, by simp [openRegion, h], ?_, by simp [openRegion]⟩
  simp [openRegion, h]

theorem coalesce_shape (ms : List ParsedMatch) :
    ∀ (reg : Option RgRegion),
      (∀ m ∈ ms, m.lineNumber.isSome = true) →
      (∀ r, reg = some r → wellShaped r) →
      ∀ s ∈ coalesceAux reg ms, wellShaped s := by
  induction ms with
  | nil =>
    intro reg _ hreg s hs
    cases reg with
    | none => cases hs
    | some r =>
      rw [show coalesceAux (some r) [] = [r] from rfl] at hs
      rw [List.mem_singleton] at hs
      subst hs
      exact hreg s rfl
  | cons m rest ih =>
    intro reg hnum hreg s hs
    have hnumm : m.lineNumber.isSome = true := hnum m (List.mem_cons_self m rest)
    obtain ⟨k, hk⟩ := Option.isSome_iff_exists.mp hnumm
    have hnumr : ∀ m' ∈ rest, m'.lineNumber.isSome = true :=
      fun m' hm' => hnum m' (List.mem_cons_of_mem m hm')
    cases reg with
    | none =>
      rw [coalesceAux_cons_none] at hs
      exact ih (some (openRegion m)) hnumr
        (fun r hr => by rw [← Option.some.inj hr]; exact wellShaped_openRegion m k hk) s hs
    | some r =>
      rw [coalesceAux_cons_some] at hs
      by_cases hg : (m.filepath == r.filepath && jsEq m.lineNumber (jsAdd1 r.lastLineNumber)) = true
      · rw [if_pos hg] at hs
        rw [Bool.and_eq_true] at hg
        obtain ⟨hfpb, hline⟩ := hg
        obtain ⟨a, hfst, hlst, hne⟩ := hreg r rfl
        rw [hlst, show jsAdd1 (some (a + (r.lines.length : Int) - 1)) =
          some (a + (r.lines.length : Int)) from by rw [jsAdd1]; congr 1; ring] at hline
        obtain ⟨k2, hk1, hk2⟩ := (jsEq_eq_true_iff _ _).mp hline
        have hm : m.lineNumber = some (a + (r.lines.length : Int)) := by
          rw [hk1, Option.some.inj hk2]
        refine ih (some (extendRegion r m)) hnumr (fun r' hr' => ?_) s hs
        rw [← Option.some.inj hr']
        refine ⟨a, by simp [extendRegion, hfst], ?_, by simp [extendRegion]⟩
        rw [show (extendRegion r m).lastLineNumber = m.lineNumber from rfl, hm]
        rw [show (extendRegion r m).lines = r.lines ++ [m.text] from rfl]
        congr 1
        simp [List.length_append]
        ring
      · rw [if_neg hg] at hs
        rcases List.mem_cons.mp hs with hEq | hmem
        · subst hEq; exact hreg s rfl
        · exact ih (some (openRegion m)) hnumr
            (fun r' hr' => by rw [← Option.some.inj hr']; exact wellShaped_openRegion m k hk) _ hmem

theorem sortedFromB_cons (used : List String) (f : String) (l : Int)
    (m : ParsedMatch) (ms : List ParsedMatch) :
    sortedFromB used f l (m :: ms) =
      match m.lineNumber with
      | none => false
      | some n =>
        if m.filepath == f then decide (l < n) && sortedFromB used f n ms
        else !used.contains m.filepath && sortedFromB (f :: used) m.filepath n ms := rfl

theorem canon_aux (ms : List ParsedMatch) :
    ∀ (used : List String) (f : String) (l a : Int) (acc : List String),
      sortedFromB used f l ms = true →
      used.contains f = false →
      a ≤ l →
      List.Pairwise sepAfter
        (coalesceAux (some ⟨f, some a, some l, acc⟩) ms) ∧
      (∀ s ∈ coalesceAux (some ⟨f, some a, some l, acc⟩) ms,
        s.filepath = f → ∃ c, s.firstLineNumber = some c ∧ a ≤ c) ∧
      (∀ s ∈ coalesceAux (some ⟨f, some a, some l, acc⟩) ms,
        used.contains s.filepath = false) := by
  induction ms with
  | nil =>
    intro used f l a acc _ hf _
    refine ⟨by simp [coalesceAux], ?_, ?_⟩
    · intro s hs
      rw [show coalesceAux (some ⟨f, some a, some l, acc⟩) [] =
        [⟨f, some a, some l, acc⟩] from rfl, List.mem_singleton] at hs
      subst hs
      exact fun _ => ⟨a, rfl, le_refl a⟩
    · intro s hs
      rw [show coalesceAux (some ⟨f, some a, some l, acc⟩) [] =
        [⟨f, some a, some l, acc⟩] from rfl, List.mem_singleton] at hs
      subst hs
      exact hf
  | cons m rest ih =>
    intro used f l a acc hsort hf hal
    cases hml : m.lineNumber with
    | none =>
      simp only [sortedFromB_cons, hml] at hsort
      exact absurd hsort Bool.false_ne_true
    | some n =>
      simp only [sortedFromB_cons, hml] at hsort
      by_cases hfp : (m.filepath == f) = true
      · rw [if_pos hfp] at hsort
        rw [Bool.and_eq_true] at hsort
        obtain ⟨hln, hsort2⟩ := hsort
        have hln2 : l < n := of_decide_eq_true hln
        have hfp2 : m.filepath = f := by simpa using hfp
        simp only [coalesceAux_cons_some, hml]
        by_cases hnl : n = l + 1
        · have hguard : (m.filepath == f && jsEq (some n) (jsAdd1 (some l))) = true := by
            rw [hfp, hnl]; simp [jsEq, jsAdd1]
          rw [if_pos hguard]
          rw [show extendRegion ⟨f, some a, some l, acc⟩ m =
            (⟨f, some a, some (l + 1), acc ++ [m.text]⟩ : RgRegion) from by
              simp [extendRegion, hml, hnl]]
          exact ih used f (l + 1) a (acc ++ [m.text]) (hnl ▸ hsort2) hf (by omega)
        · have hguard : (m.filepath == f && jsEq (some n) (jsAdd1 (some l))) = false := by
            rw [hfp]
            simp only [Bool.true_and, jsAdd1]
            rw [show jsEq (some n) (some (l + 1)) = (n == l + 1) from rfl]
            exact beq_eq_false_iff_ne.mpr hnl
          rw [if_neg (by simp [hguard])]
          rw [show openRegion m = (⟨f, some n, some n, [m.text]⟩ : RgRegion) from by
            simp [openRegion, hml, hfp2]]
          obtain ⟨ih1, ih2, ih3⟩ := ih used f n n [m.text] hsort2 hf (le_refl n)
          refine ⟨?_, ?_, ?_⟩
          · refine List.pairwise_cons.mpr ⟨?_, ih1⟩
            intro s hs hfps
            obtain ⟨c, hc, hnc⟩ := ih2 s hs hfps.symm
            exact ⟨l, c, rfl, hc, by omega⟩
          · intro s hs
            rcases List.mem_cons.mp hs with hEq | hmem
            · subst hEq; exact fun _ => ⟨a, rfl, le_refl a⟩
            · intro hsf
              obtain ⟨c, hc, hnc⟩ := ih2 s hmem hsf
              exact ⟨c, hc, by omega⟩
          · intro s hs
            rcases List.mem_cons.mp hs with hEq | hmem
            · subst hEq; exact hf
            · exact ih3 s hmem
      · rw [if_neg hfp] at hsort
        rw [Bool.and_eq_true] at hsort
        obtain ⟨hnu, hsort2⟩ := hsort
        have hnu2 : used.contains m.filepath = false := by simpa using hnu
        have hfpF : (m.filepath == f) = false := by simpa using hfp
        simp only [coalesceAux_cons_some, hml]
        have hguard : (m.filepath == f && jsEq (some n) (jsAdd1 (some l))) = false := by
          rw [hfpF]; simp
        rw [if_neg (by simp [hguard])]
        rw [show openRegion m = (⟨m.filepath, some n, some n, [m.text]⟩ : RgRegion) from by
          simp [openRegion, hml]]
        have hcont : (f :: used).contains m.filepath = false := by
          simp only [List.contains_cons, Bool.or_eq_false_iff]
          exact ⟨by simpa using hfpF, hnu2⟩
        obtain ⟨ih1, ih2, ih3⟩ := ih (f :: used) m.filepath n n [m.text] hsort2 hcont (le_refl n)
        have hnotf : ∀ s ∈ coalesceAux
            (some ⟨m.filepath, some n, some n, [m.text]⟩) rest,
            s.filepath ≠ f ∧ used.contains s.filepath = false := by
          intro s hs
          have h3 := ih3 s hs
          rw [List.contains_cons, Bool.or_eq_false_iff] at h3
          exact ⟨by simpa using h3.1, h3.2⟩
        refine ⟨?_, ?_, ?_⟩
        · refine List.pairwise_cons.mpr ⟨?_, ih1⟩
          intro s hs hfps
          exact absurd hfps.symm (hnotf s hs).1
        · intro s hs
          rcases List.mem_cons.mp hs with hEq | hmem
          · subst hEq; exact fun _ => ⟨a, rfl, le_refl a⟩
          · intro hsf
            exact absurd hsf (hnotf s hmem).1
        · intro s hs
          rcases List.mem_cons.mp hs with hEq | hmem
          · subst hEq; exact hf
          · exact (hnotf s hmem).2

theorem streamSorted_cons (m : ParsedMatch) (ms : List ParsedMatch) :
    streamSorted (m :: ms) =
      match m.lineNumber with
      | none => false
      | some n => sortedFromB [] m.filepath n ms := rfl

theorem sortedFromB_numeric (ms : List ParsedMatch) :
    ∀ (used : List String) (f : String) (l : Int), sortedFromB used f l ms = true →
      ∀ m ∈ ms, m.lineNumber.isSome = true := by
  induction ms with
  | nil => intro used f l _ m hm; cases hm
  | cons m rest ih =>
    intro used f l hsort m2 hm2
    cases hml : m.lineNumber with
    | none =>
      simp only [sortedFromB_cons, hml] at hsort
      exact absurd hsort Bool.false_ne_true
    | some n =>
      simp only [sortedFromB_cons, hml] at hsort
      rcases List.mem_cons.mp hm2 with hEq | hmem
      · subst hEq; simp [hml]
      · by_cases hfp : (m.filepath == f) = true
        · rw [if_pos hfp, Bool.and_eq_true] at hsort
          exact ih used f n hsort.2 m2 hmem
        · rw [if_neg hfp, Bool.and_eq_true] at hsort
          exact ih (f :: used) m.filepath n hsort.2 m2 hmem

theorem pairwise_separated_of_sepAfter {out : List RgRegion}
    (hshape : ∀ s ∈ out, wellShaped s) (hpair : List.Pairwise sepAfter out) :
    List.Pairwise separated out := by
  refine List.Pairwise.imp_of_mem (fun {r s} hr hs hsep => ?_) hpair
  intro hfps
  obtain ⟨b, c, hb, hc, hbc⟩ := hsep hfps
  obtain ⟨ar, har1, _, _⟩ := hshape r hr
  obtain ⟨as2, _, has2, _⟩ := hshape s hs
  exact ⟨ar, b, c, as2 + s.lines.length - 1, har1, hb, hc, has2, Or.inl hbc⟩

/-- On a sorted match stream the coalescer's output is canonical: any two
output regions of the same file are separated. -/
theorem pairwise_separated_coalesce (ms : List ParsedMatch)
    (hs : streamSorted ms = true) :
    List.Pairwise separated (rgMatchesToRegions ms) := by
  cases ms with
  | nil => exact List.Pairwise.nil
  | cons m rest =>
    cases hml : m.lineNumber with
    | none =>
      simp only [streamSorted_cons, hml] at hs
      exact absurd hs Bool.false_ne_true
    | some n =>
      simp only [streamSorted_cons, hml] at hs
      rw [rgMatchesToRegions, coalesceAux_cons_none]
      rw [show openRegion m = (⟨m.filepath, some n, some n, [m.text]⟩ : RgRegion) from by
        simp [openRegion, hml]]
      obtain ⟨c1, _, _⟩ := canon_aux rest [] m.filepath n n [m.text] hs rfl (le_refl n)
      have hshape : ∀ s ∈ coalesceAux
          (some ⟨m.filepath, some n, some n, [m.text]⟩) rest, wellShaped s := by
        refine coalesce_shape rest _ (sortedFromB_numeric rest [] m.filepath n hs) ?_
        intro r' hr'
        rw [← Option.some.inj hr']
        exact ⟨n, rfl, by norm_num, by simp⟩
      exact pairwise_separated_of_sepAfter hshape c1

/-- C3: on a finite match stream grouped by file with ascending line
numbers, the coalescer emits pairwise disjoint, non-adjacent regions per
file whose covered line numbers are exactly the stream's matched line
numbers per file; the empty stream yields no regions. -/
theorem coalescer_correct (ms : List ParsedMatch) (hs : streamSorted ms = true) :
    rgMatchesToRegions ([] : List ParsedMatch) = [] ∧
    List.Pairwise separated (rgMatchesToRegions ms) ∧
    (∀ (fp : String) (n : Int),
      (∃ r ∈ rgMatchesToRegions ms, r.filepath = fp ∧ covers r n) ↔
      (∃ m ∈ ms, m.filepath = fp ∧ m.lineNumber = some n)) := by
  refine ⟨rfl, pairwise_separated_coalesce ms hs, ?_⟩
  intro fp n
  have h := coverage_aux ms none trivial fp n
  rw [rgMatchesToRegions]
  rw [h]
  constructor
  · rintro (⟨r, hr, _⟩ | h2)
    · cases hr
    · exact h2
  · exact Or.inr

/-- Witness for C3 on a concrete sorted stream with a gap and a file
change. -/
theorem coalescer_correct_witness :
    List.Pairwise separated (rgMatchesToRegions
      [⟨"a", some 1, "x"⟩, ⟨"a", some 2, "y"⟩, ⟨"a", some 5, "z"⟩, ⟨"b", some 3, "w"⟩]) :=
  (coalescer_correct _ (by decide)).2.1

/-- C9: any region the coalescer produces from a numeric match stream,
expanded back into its per-line matches, re-coalesces to exactly that one
region. -/
theorem coalesce_idempotent (ms : List ParsedMatch)
    (hnum : ∀ m ∈ ms, m.lineNumber.isSome = true)
    (r : RgRegion) (hr : r ∈ rgMatchesToRegions ms)
    (a : Int) (ha : r.firstLineNumber = some a) :
    r.lastLineNumber = some (a + r.lines.length - 1) ∧ r.lines ≠ [] ∧
    rgMatchesToRegions (expandFrom r.filepath a r.lines) = [r] := by
  have hws := coalesce_shape ms none hnum (fun r' hr' => by cases hr') r hr
  obtain ⟨fp0, f0, l0, ls0⟩ := r
  obtain ⟨a2, ha2, hl2, hne⟩ := hws
  simp only at ha2 hl2 hne ha ⊢
  rw [ha] at ha2
  have haa : a2 = a := (Option.some.inj ha2).symm
  subst haa
  refine ⟨hl2, hne, ?_⟩
  cases ls0 with
  | nil => exact absurd rfl hne
  | cons t ts =>
    rw [show expandFrom fp0 a2 (t :: ts) =
      (⟨fp0, some a2, t⟩ : ParsedMatch) :: expandFrom fp0 (a2 + 1) ts from rfl]
    rw [rgMatchesToRegions, coalesceAux_cons_none]
    rw [show openRegion (⟨fp0, some a2, t⟩ : ParsedMatch) =
      (⟨fp0, some a2, some a2, [t]⟩ : RgRegion) from rfl]
    rw [coalesce_run fp0 ts a2 a2 [t]]
    rw [ha, hl2]
    have harith : a2 + (ts.length : Int) = a2 + ((t :: ts).length : Int) - 1 := by
      simp [List.length_cons]; ring
    rw [harith]
    simp

/-- Witness for C9: the region coalesced from two consecutive matches
re-coalesces to itself. -/
theorem coalesce_idempotent_witness :
    rgMatchesToRegions (expandFrom "f" 3 ["x", "y"]) =
      [⟨"f", some 3, some 4, ["x", "y"]⟩] :=
  (coalesce_idempotent [⟨"f", some 3, "x"⟩, ⟨"f", some 4, "y"⟩] (by decide)
    ⟨"f", some 3, some 4, ["x", "y"]⟩ (by decide) 3 rfl).2.2

/-- C4 counterexample: a match line whose line-number field (`bar`) cannot
be parsed does not make the coalescer fail — `rgLinesToRegions` is total
and silently turns the line into a Region with `NaN` bounds.  No
`MalformedMatchLine` (or any other) error exists in the source. -/
theorem malformed_line_no_failure :
    rgLinesToRegions ["foo:bar:baz"] = [⟨"foo", none, none, ["baz"]⟩] := by decide

/-- C4 (amended): a match whose line-number field parses as `NaN` never
fails and never merges: it always shows up in the coalescer's output as
its own region with `NaN` bounds carrying exactly that line's text. -/
theorem malformed_line_yields_nan_region (ms : List ParsedMatch) (m : ParsedMatch)
    (hm : m ∈ ms) (hnan : m.lineNumber = none) :
    (⟨m.filepath, none, none, [m.text]⟩ : RgRegion) ∈ rgMatchesToRegions ms :=
  nan_match_mem_aux ms none m hm hnan

/-- Witness for the amended C4 at the concrete malformed line
`foo:bar:baz`. -/
theorem malformed_line_yields_nan_region_witness :
    (⟨"foo", none, none, ["baz"]⟩ : RgRegion) ∈
      rgMatchesToRegions [⟨"foo", none, "baz"⟩] :=
  malformed_line_yields_nan_region [⟨"foo", none, "baz"⟩] ⟨"foo", none, "baz"⟩
    (by decide) rfl

/-- C5 (amended): every stage transformation yields a canonical region
set — coalesced search output of a sorted stream, and the four filtering
stages starting from a canonical set; the stdin seed is canonical exactly
when the (trimmed, nonempty) stdin file list has no duplicate path.  (The
unamended claim fails only on a duplicated stdin path; see the
counterexample.) -/
theorem canonical_form_stages :
    (∀ ms, streamSorted ms = true →
      List.Pairwise separated (rgMatchesToRegions ms)) ∧
    (∀ current newRegions, List.Pairwise separated current →
      List.Pairwise separated (intersectByOverlap current newRegions)) ∧
    (∀ current negatedRegions, List.Pairwise separated current →
      List.Pairwise separated (subtractByOverlap current negatedRegions)) ∧
    (∀ matchFn pattern current, List.Pairwise separated current →
      List.Pairwise separated (globFilter matchFn pattern current)) ∧
    (∀ stdinLines, (jsReadStdin stdinLines).Nodup →
      List.Pairwise separated (filesFromStdinSeed (jsReadStdin stdinLines))) ∧
    (∀ files current, List.Pairwise separated current →
      List.Pairwise separated (stdinFilter files current)) := by
  refine ⟨pairwise_separated_coalesce, ?_, ?_, ?_, ?_, ?_⟩
  · exact fun current newRegions hp => hp.sublist (List.filter_sublist _)
  · exact fun current negatedRegions hp => hp.sublist (List.filter_sublist _)
  · exact fun matchFn pattern current hp => hp.sublist (List.filter_sublist _)
  · intro stdinLines hnd
    exact List.Pairwise.map _ (fun a b hab hfp => absurd hfp hab) hnd
  · exact fun files current hp => hp.sublist (List.filter_sublist _)

/-- C5 counterexample: with stdin listing the same path twice, the
first-stage `files-from-stdin` seeding produces two identical whole-file
regions for one file — overlapping, hence not canonical. -/
theorem canonical_form_counterexample :
    ¬ List.Pairwise separated
      ((execStage envDup true (initDriverState envDup) Script.filesFromStdin).regions) := by
  intro h
  have he : (execStage envDup true (initDriverState envDup) Script.filesFromStdin).regions =
      [⟨"a.txt", some 1, some maxSafeInteger, []⟩,
       ⟨"a.txt", some 1, some maxSafeInteger, []⟩] := by decide
  rw [he] at h
  have hsep := (List.pairwise_cons.mp h).1 _ (List.mem_cons_self _ _)
  obtain ⟨a, b, c, d, ha, hb, hc, hd, hor⟩ := hsep rfl
  have h1 : (1 : Int) = a := Option.some.inj ha
  have h2 : maxSafeInteger = b := Option.some.inj hb
  have h3 : (1 : Int) = c := Option.some.inj hc
  have h4 : maxSafeInteger = d := Option.some.inj hd
  have hmax : maxSafeInteger = (9007199254740991 : Int) := rfl
  omega

/-- Witness for the amended C5: a duplicate-free stdin list seeds a
canonical region set. -/
theorem canonical_form_stages_witness :
    List.Pairwise separated (filesFromStdinSeed (jsReadStdin ["x.txt", "y.txt"])) :=
  canonical_form_stages.2.2.2.2.1 ["x.txt", "y.txt"] (by decide)

theorem numberLinesFrom_mem_bounds (ls : List String) :
    ∀ (i : Int) (p : Int × String), p ∈ numberLinesFrom i ls →
      i ≤ p.1 ∧ p.1 ≤ i + ls.length - 1 := by
  induction ls with
  | nil => intro i p hp; cases hp
  | cons l ls ih =>
    intro i p hp
    rcases List.mem_cons.mp hp with hEq | hmem
    · subst hEq
      refine ⟨le_refl i, ?_⟩
      simp only [List.length_cons]
      push_cast
      omega
    · obtain ⟨h1, h2⟩ := ih (i + 1) p hmem
      simp only [List.length_cons]
      push_cast
      constructor <;> omega

theorem numberLinesFrom_mem_replicate (x : String) :
    ∀ (k : Nat) (i : Int), (i + k, x) ∈ numberLinesFrom i (List.replicate (k + 1) x) := by
  intro k
  induction k with
  | zero => intro i; simp [List.replicate, numberLinesFrom]
  | succ k ih =>
    intro i
    rw [show List.replicate (k + 1 + 1) x = x :: List.replicate (k + 1) x from rfl]
    rw [show numberLinesFrom i (x :: List.replicate (k + 1) x) =
      (i, x) :: numberLinesFrom (i + 1) (List.replicate (k + 1) x) from rfl]
    refine List.mem_cons_of_mem _ ?_
    have h := ih (i + 1)
    rw [show i + 1 + (k : Int) = i + ((k : Int) + 1) from by ring] at h
    have hc : ((k : Int) + 1) = ((k + 1 : Nat) : Int) := by push_cast; ring
    rw [hc] at h
    exact h

/-- C6 counterexample: the whole-file sentinel is the fixed numeric bound
`Number.MAX_SAFE_INTEGER`, and `print-regions` compares against it
numerically, so a (mathematical) file with `MAX_SAFE_INTEGER + 1` lines is
not printed in full: the claim's "prints every line of the file, not a
fixed numeric count" fails on it. -/
theorem whole_file_sentinel_counterexample :
    printRegion (List.replicate 9007199254740992 "x")
        ⟨"f", some 1, some maxSafeInteger, []⟩ ≠
      (numberLinesFrom 1 (List.replicate 9007199254740992 "x")).map
        (fun p => "f" ++ ":" ++ toString p.1 ++ ":" ++ p.2) := by
  intro heq
  rw [printRegion] at heq
  have hlen := congrArg List.length heq
  rw [List.length_map, List.length_map] at hlen
  have hfeq := (List.filter_sublist _).eq_of_length hlen
  have hall := List.filter_eq_self.mp hfeq
  have hmem : ((9007199254740992 : Int), "x") ∈
      numberLinesFrom 1 (List.replicate 9007199254740992 "x") := by
    have h := numberLinesFrom_mem_replicate "x" 9007199254740991 1
    rw [show (1 : Int) + ((9007199254740991 : Nat) : Int) = (9007199254740992 : Int) from by
      norm_num] at h
    rw [show (9007199254740991 : Nat) + 1 = 9007199254740992 from by norm_num] at h
    exact h
  have hp := hall _ hmem
  rw [Bool.and_eq_true] at hp
  have h2 := hp.2
  rw [show ((⟨"f", some 1, some maxSafeInteger, []⟩ : RgRegion)).lastLineNumber =
    some maxSafeInteger from rfl] at h2
  rw [show jsLe (some ((9007199254740992 : Int), "x").1) (some maxSafeInteger) =
    decide ((9007199254740992 : Int) ≤ maxSafeInteger) from rfl] at h2
  rw [show maxSafeInteger = (9007199254740991 : Int) from rfl] at h2
  exact absurd (of_decide_eq_true h2) (by norm_num)

/-- C6 (amended): a first-stage files-from-stdin seeds one region per
listed path with `firstLine = 1` and `lastLine = Number.MAX_SAFE_INTEGER`
as the whole-file sentinel, and `print-regions` prints every line from
line 1 through the file's last line for any file with at most
`MAX_SAFE_INTEGER` lines (the sentinel is compared as a numeric bound,
which no real file can exceed). -/
theorem stdin_seed_whole_file (files : List String) (fp : String)
    (fileLines : List String) (hfp : fp ∈ files)
    (hlen : (fileLines.length : Int) ≤ maxSafeInteger) :
    (⟨fp, some 1, some maxSafeInteger, []⟩ : RgRegion) ∈ filesFromStdinSeed files ∧
    (∀ r ∈ filesFromStdinSeed files,
      r.firstLineNumber = some 1 ∧ r.lastLineNumber = some maxSafeInteger) ∧
    printRegion fileLines ⟨fp, some 1, some maxSafeInteger, []⟩ =
      (numberLinesFrom 1 fileLines).map
        (fun p => fp ++ ":" ++ toString p.1 ++ ":" ++ p.2) := by
  refine ⟨?_, ?_, ?_⟩
  · exact List.mem_map.mpr ⟨fp, hfp, rfl⟩
  · intro r hr
    obtain ⟨fp2, _, hEq⟩ := List.mem_map.mp hr
    rw [← hEq]
    exact ⟨rfl, rfl⟩
  · rw [printRegion]
    have hall : ∀ p ∈ numberLinesFrom 1 fileLines,
        (jsLe ((⟨fp, some 1, some maxSafeInteger, []⟩ : RgRegion)).firstLineNumber
            (some p.1) &&
         jsLe (some p.1)
            ((⟨fp, some 1, some maxSafeInteger, []⟩ : RgRegion)).lastLineNumber) = true := by
      intro p hp
      obtain ⟨h1, h2⟩ := numberLinesFrom_mem_bounds fileLines 1 p hp
      rw [Bool.and_eq_true]
      constructor
      · rw [show jsLe ((⟨fp, some 1, some maxSafeInteger, []⟩ : RgRegion)).firstLineNumber
          (some p.1) = decide ((1 : Int) ≤ p.1) from rfl]
        exact decide_eq_true h1
      · rw [show jsLe (some p.1)
          ((⟨fp, some 1, some maxSafeInteger, []⟩ : RgRegion)).lastLineNumber =
          decide (p.1 ≤ maxSafeInteger) from rfl]
        exact decide_eq_true (by omega)
    rw [List.filter_eq_self.mpr hall]

/-- Witness for the amended C6 on a two-line file listed on stdin. -/
theorem stdin_seed_whole_file_witness :
    printRegion ["l1", "l2"] ⟨"x.txt", some 1, some maxSafeInteger, []⟩ =
      ["x.txt:1:l1", "x.txt:2:l2"] := by
  have h := (stdin_seed_whole_file ["x.txt", "y.txt"] "x.txt" ["l1", "l2"]
    (by decide) (by decide)).2.2
  rw [h]
  decide

theorem parseAll_error (ss : List String) :
    ∀ (s e : String), s ∈ ss → parseScript s = Except.error e →
      ∃ e2, parseAll ss = Except.error e2 := by
  induction ss with
  | nil => intro s e hs _; cases hs
  | cons hd tl ih =>
    intro s e hs he
    rcases List.mem_cons.mp hs with hEq | hmem
    · subst hEq
      exact ⟨e, by rw [parseAll, he]⟩
    · cases hp : parseScript hd with
      | error e2 => exact ⟨e2, by rw [parseAll, hp]⟩
      | ok sc =>
        obtain ⟨e2, h2⟩ := ih s e hmem he
        exact ⟨e2, by rw [parseAll, hp, h2]⟩

/-- C8: all stage strings are parsed before anything runs: if any stage
string fails to parse, `main` fails with that parse error for every
possible environment — no rg or sed process output is consumed, no region
is built and no output is produced. -/
theorem parse_failure_aborts (scriptStrings : List String) (s e : String)
    (hs : s ∈ scriptStrings) (he : parseScript s = Except.error e) :
    ∃ e2, ∀ env : Env, mainModel env scriptStrings = Except.error e2 := by
  obtain ⟨e2, h2⟩ := parseAll_error scriptStrings s e hs he
  exact ⟨e2, fun env => by rw [mainModel, h2]⟩

/-- Witness for C8: the unrecognized stage string `bogus` aborts the run
regardless of environment. -/
theorem parse_failure_aborts_witness :
    ∃ e2, ∀ env : Env, mainModel env ["bogus"] = Except.error e2 :=
  parse_failure_aborts ["bogus"] "bogus" "Unknown script type: bogus"
    (by decide) (by rfl)
